import Mathlib

/-!
# Verification of the minisam layout-and-elimination core

Shallow embedding of the repository's three source files:

* `src/inference/VariableSlots.h` — the `VariableSlots` constructor is given
  inline in the header and is embedded here statement by statement
  (`std::map<int, std::vector<int>>` becomes a key-sorted association list).
* `src/linear/NoiseModel.h` — only declarations and documentation comments are
  under `src/`; the member-function bodies live in a translation unit that is
  not part of the provided sources.  Those operations are therefore modelled
  from the spec (each such definition carries a doc comment starting with
  `Modelled from the spec:`).  Real arithmetic is embedded with `ℚ` (exact
  arithmetic; the spec's round-trip and zero/nonzero case distinctions are
  exact statements there).
* `src/linear/Scatter.h` — declarations only; the graph-scanning constructor
  is modelled from the spec.
-/

/-! ## VariableSlots (src/inference/VariableSlots.h, lines 52-92) -/

/-- Modelled from the spec: the sentinel `VariableSlots::Empty` is declared in
`src/inference/VariableSlots.h` (line 42) but the translation unit defining its
value is not under `src/`; the spec fixes it as "the maximum representable
integer", i.e. the largest 32-bit `int`. -/
def EmptySlot : Int := 2147483647

/-- Shallow embedding of `std::map<int, std::vector<int>>`
(the base class of `VariableSlots`): an association list kept sorted by key in
strictly ascending order, which is `std::map`'s iteration order. -/
abbrev SlotMap := List (Nat × List Int)

/-- `std::map::find` / `operator[]` read access: first (and, in a sorted map,
only) binding of the key. -/
def slookup (k : Nat) : SlotMap → Option (List Int)
  | [] => none
  | (k', v) :: rest => if k = k' then some v else slookup k rest

/-- Keys of the map, in iteration order. -/
def mkeys (m : SlotMap) : List Nat := m.map Prod.fst

/-- One inner-loop body of the `VariableSlots` constructor
(`VariableSlots.h` lines 79-84): `this->insert(make_pair(k, vector<int>()))`
followed by `resize(n, Empty)` when the key was absent, then
`thisVarSlots->second[pos] = slot`.  The net effect on a `std::map`: bind `k`
(keeping sortedness) to its previous value — or to `replicate n Empty` when
absent — with position `pos` overwritten by `slot`. -/
def slotUpsert (k : Nat) (base : List Int) (pos : Nat) (slot : Int) : SlotMap → SlotMap
  | [] => [(k, base.set pos slot)]
  | (k', v) :: rest =>
    if k < k' then (k, base.set pos slot) :: (k', v) :: rest
    else if k = k' then (k', v.set pos slot) :: rest
    else (k', v) :: slotUpsert k base pos slot rest

/-- The inner loop of the constructor (`VariableSlots.h` lines 70-88): walk the
keys of one factor, `factorVarSlot` starting at `slot`, upserting each key. -/
def processKeys (n pos : Nat) : Nat → List Nat → SlotMap → SlotMap
  | _, [], m => m
  | slot, k :: ks, m =>
      processKeys n pos (slot + 1) ks
        (slotUpsert k (List.replicate n EmptySlot) pos (Int.ofNat slot) m)

/-- The outer loop of the constructor (`VariableSlots.h` lines 65-90):
`jointFactorPos` starting at `pos`, one `processKeys` pass per factor. -/
def variableSlotsGo (n : Nat) : Nat → List (List Nat) → SlotMap → SlotMap
  | _, [], m => m
  | pos, f :: fs, m => variableSlotsGo n (pos + 1) fs (processKeys n pos 0 f m)

/-- The `VariableSlots` constructor: factors are given as their ordered key
lists (the iteration contract of `Factor`); `n = factorGraph.size()`. -/
def variableSlots (factors : List (List Nat)) : SlotMap :=
  variableSlotsGo factors.length 0 factors []

/-- Index of the last occurrence of `k` in a list (meaningful when `k` is a
member).  The constructor's repeated assignment
`thisVarSlots->second[jointFactorPos] = factorVarSlot` makes the last
occurrence win, which this function captures. -/
def lastIdxOf (k : Nat) : List Nat → Nat
  | [] => 0
  | k' :: ks => if k ∈ ks then lastIdxOf k ks + 1 else if k = k' then 0 else 0

/-- Cumulative effect of the whole constructor on the slot vector of one key
`k`: starting from row-block position `pos`, each factor containing `k`
overwrites its position with the last local slot of `k` in that factor. -/
def applySlots (k : Nat) : Nat → List (List Nat) → List Int → List Int
  | _, [], L => L
  | pos, f :: fs, L =>
      applySlots k (pos + 1) fs
        (if k ∈ f then L.set pos (Int.ofNat (lastIdxOf k f)) else L)

/-! ## Noise models (src/linear/NoiseModel.h)

Only the class declarations and their documentation comments are under `src/`;
every member-function body below is therefore modelled from the spec
(spec sections 3, 4.3, 7, 8).  Standard deviations, residuals and matrix
entries are embedded as `ℚ` (exact arithmetic). -/

/-- Dot product of two rational vectors. -/
def dotL (a b : List ℚ) : ℚ := (List.zipWith (fun x y => x * y) a b).sum

/-- Matrix–vector product; a matrix is its list of rows. -/
def matVec (rows : List (List ℚ)) (x : List ℚ) : List ℚ := rows.map (fun r => dotL r x)

/-- Modelled from the spec: `DiagonalNoiseModel::whiten` (body not under `src/`),
spec 4.3: "whiten(v)_i = v_i / sigma_i". -/
def diagWhiten (sigmas v : List ℚ) : List ℚ := List.zipWith (fun s x => x / s) sigmas v

/-- Modelled from the spec: `DiagonalNoiseModel::unwhiten` (body not under
`src/`), spec 4.3: "unwhiten(v)_i = v_i · sigma_i". -/
def diagUnwhiten (sigmas v : List ℚ) : List ℚ := List.zipWith (fun s x => x * s) sigmas v

/-- Modelled from the spec: `IsotropicNoiseModel::whiten` (body not under
`src/`), spec 4.3: "whiten(v) = v / sigma, elementwise". -/
def isoWhiten (sigma : ℚ) (v : List ℚ) : List ℚ := v.map (fun x => x / sigma)

/-- Modelled from the spec: `IsotropicNoiseModel::unwhiten` (body not under
`src/`): elementwise multiplication by the scalar sigma. -/
def isoUnwhiten (sigma : ℚ) (v : List ℚ) : List ℚ := v.map (fun x => x * sigma)

/-- Modelled from the spec: `GaussianNoiseModel::whiten` (body not under
`src/`), spec 4.3: "whiten(v) = R·v" with `R` the square upper-triangular
square-root information matrix. -/
def gaussWhiten (R : List (List ℚ)) (v : List ℚ) : List ℚ := matVec R v

/-- Back-substitution for an upper-triangular system, fuel-indexed so that the
recursion is structural: solve the trailing subsystem (rows below the first,
with their leading zero column dropped), then the first equation. -/
def backSolveN : Nat → List (List ℚ) → List ℚ → List ℚ
  | 0, _, _ => []
  | _ + 1, [], _ => []
  | _ + 1, _ :: _, [] => []
  | n + 1, row :: rest, y0 :: ys =>
      let xs := backSolveN n (rest.map (fun r => r.drop 1)) ys
      ((y0 - dotL (row.drop 1) xs) / row.headD 0) :: xs

/-- Modelled from the spec: `GaussianNoiseModel::unwhiten` (body not under
`src/`), spec 4.3: "unwhiten(v) = R⁻¹·v (solve, not explicit inverse)" —
a triangular solve. -/
def gaussUnwhiten (R : List (List ℚ)) (y : List ℚ) : List ℚ := backSolveN R.length R y

/-- The matrix is upper triangular with a nonzero diagonal (the shape the spec
guarantees for a non-singular Gaussian square-root information matrix `R`):
first column is zero below the head, head (diagonal) entry nonzero, and the
same recursively for the trailing subsystem.  Fuel-indexed like
`backSolveN`. -/
def TriNonsing : Nat → List (List ℚ) → Prop
  | 0, _ => True
  | _ + 1, [] => True
  | n + 1, row :: rest =>
      row.headD 0 ≠ 0 ∧ (∀ r ∈ rest, r.headD 0 = 0) ∧
        TriNonsing n (rest.map (fun r => r.drop 1))

instance instDecTriNonsing : (n : Nat) → (rows : List (List ℚ)) → Decidable (TriNonsing n rows)
  | 0, _ => decidable_of_iff True (by simp [TriNonsing])
  | _ + 1, [] => decidable_of_iff True (by simp [TriNonsing])
  | n + 1, row :: rest =>
      have : Decidable (TriNonsing n (rest.map (fun r => r.drop 1))) :=
        instDecTriNonsing n (rest.map (fun r => r.drop 1))
      decidable_of_iff (row.headD 0 ≠ 0 ∧ (∀ r ∈ rest, r.headD 0 = 0) ∧
        TriNonsing n (rest.map (fun r => r.drop 1))) (by rw [TriNonsing])

/-- Modelled from the spec: `ConstrainedNoiseModel::whiten` (body not under
`src/`), spec 4.3: "if sigma_i == 0, output 0 when input v_i == 0, and output
v_i unchanged otherwise ...  For sigma_i > 0, behaves exactly as Diagonal."
With exact arithmetic both zero-sigma cases are `v_i` itself. -/
def constrainedWhiten (sigmas v : List ℚ) : List ℚ :=
  List.zipWith (fun s x => if s = 0 then x else x / s) sigmas v

/-- Inverse sigma as stored by a diagonal model; spec 4.3/3: a zero sigma must
not produce an infinite inverse-sigma, so the Constrained path stores 0
there. -/
def cInv (s : ℚ) : ℚ := if s = 0 then 0 else s⁻¹

/-- The observable data of a `DiagonalNoiseModel`: its sigma vector and the
inverse sigmas precomputed at construction (spec 4.3: "Sigmas, inverse-sigmas
and precisions are precomputed once at construction").  `dim` is the length of
the sigma vector. -/
structure DiagModel where
  sigmas : List ℚ
  invsigmas : List ℚ
deriving DecidableEq

/-- `SharedNoiseModel::dim` for a diagonal model. -/
def DiagModel.dim (mdl : DiagModel) : Nat := mdl.sigmas.length

/-- Modelled from the spec: `DiagonalNoiseModel::Sigmas` (body not under
`src/`), spec 4.3/7: "A sigma of exactly 0 is disallowed in the unconstrained
Diagonal path ... construction of Diagonal rejects it (signals an error)",
"rejected at construction, not deferred to first use". -/
def DiagonalSigmas (sigmas : List ℚ) : Except String DiagModel :=
  if (0 : ℚ) ∈ sigmas then
    Except.error "DiagonalNoiseModel::Sigmas: zero sigma, use Constrained"
  else
    Except.ok ⟨sigmas, sigmas.map cInv⟩

/-! ### QR elimination

Modelled from the spec (the bodies of `DiagonalNoiseModel::QR` and
`ConstrainedNoiseModel::QR` are not under `src/`).  Spec 1/4.3 exclude the
orthogonal-factorization kernel itself from the contract ("does not define the
matrix-decomposition kernels ... only how and when they are invoked and how
their results are interpreted"), so the elimination step is an exact
column-by-column pivoting elimination; the contract proved about it is the
one the spec states: in-place production of `[R | d]` in the leading
`r = min(m,n)` rows, all entries strictly below the diagonal zeroed, and the
returned noise model describing the output rows. -/

/-- First row with a nonzero leading entry, together with the remaining rows
in their original order. -/
def extractPivot : List (List ℚ) → Option (List ℚ × List (List ℚ))
  | [] => none
  | r :: rs =>
      if r.headD 0 ≠ 0 then some (r, rs)
      else match extractPivot rs with
        | some (p, rest) => some (p, r :: rest)
        | none => none

/-- Eliminate the leading entry of `r` using the pivot row `piv`
(and drop the leading column). -/
def reduceRow (piv r : List ℚ) : List ℚ :=
  List.zipWith (fun x y => y - (r.headD 0 / piv.headD 0) * x) (piv.drop 1) (r.drop 1)

/-- Column-by-column elimination over `w` columns: a column with a pivot
produces one output row and eliminates that column from the remaining rows;
a column with no nonzero candidate produces no output row (spec 4.3: "that
column simply has no corresponding output row").  Structurally recursive on
the column count. -/
def elimW : Nat → List (List ℚ) → List (List ℚ)
  | 0, _ => []
  | w + 1, rows =>
      match extractPivot rows with
      | some (piv, rest) =>
          piv :: (elimW w (rest.map (reduceRow piv))).map (fun r => 0 :: r)
      | none => (elimW w (rows.map (fun r => r.drop 1))).map (fun r => 0 :: r)

/-- Pad or truncate the output to exactly `r` rows of width `w`: spec 4.3,
the result `[R | d]` occupies the leading `r = min(m,n)` rows. -/
def padTo (r w : Nat) (rows : List (List ℚ)) : List (List ℚ) :=
  rows.take r ++ List.replicate (r - rows.length) (List.replicate w 0)

/-- Modelled from the spec: `DiagonalNoiseModel::QR` (body not under `src/`),
spec 4.3 and the header comment at `NoiseModel.h` lines 310-319: whiten the
system, eliminate in place, keep the leading `r = min(m,n)` rows with
everything strictly below the diagonal zero, and return a unit model
describing those `r` rows ("R,d are whitened"). -/
def diagQR (sigmas : List ℚ) (Ab : List (List ℚ)) : List (List ℚ) × DiagModel :=
  let w := (Ab.headD []).length
  let r := min Ab.length (w - 1)
  (padTo r w (elimW w (List.zipWith (fun s row => row.map (fun x => x / s)) sigmas Ab)),
    ⟨List.replicate r 1, List.replicate r 1⟩)

/-- A working row of the constrained elimination: its standard deviation
(0 = hard constraint) and its entries. -/
structure CRow where
  sigma : ℚ
  vals : List ℚ
deriving DecidableEq

/-- First remaining hard-constraint row (`sigma = 0`) with a nonzero leading
entry, with the other rows in order. -/
def extractHardPivot : List CRow → Option (CRow × List CRow)
  | [] => none
  | r :: rs =>
      if r.sigma = 0 ∧ r.vals.headD 0 ≠ 0 then some (r, rs)
      else match extractHardPivot rs with
        | some (p, rest) => some (p, r :: rest)
        | none => none

/-- First remaining row of any sigma with a nonzero leading entry. -/
def extractSoftPivot : List CRow → Option (CRow × List CRow)
  | [] => none
  | r :: rs =>
      if r.vals.headD 0 ≠ 0 then some (r, rs)
      else match extractSoftPivot rs with
        | some (p, rest) => some (p, r :: rest)
        | none => none

/-- Eliminate the leading entry of `r` using the pivot row `piv`, dropping the
leading column; the reduced row keeps its own sigma. -/
def reduceCRow (piv r : CRow) : CRow :=
  ⟨r.sigma, List.zipWith (fun x y => y - (r.vals.headD 0 / piv.vals.headD 0) * x)
    (piv.vals.drop 1) (r.vals.drop 1)⟩

/-- Modelled from the spec: the constraint-aware elimination loop of
`ConstrainedNoiseModel::QR` (body not under `src/`), spec 4.3: a column whose
pivot can be taken from a hard-constraint row produces a zero-sigma output row
(hard directions "stay flagged as zero-sigma"); only when no hard row has a
nonzero entry in the column is the pivot direction formed from rows of
nonzero sigma, producing a regular unit output row ("rows that mixed with
unconstrained directions become regular (positive-sigma or unit) rows");
a column with no candidate at all produces no output row.  Output: one
`(sigma, row)` pair per pivot. -/
def celimW : Nat → List CRow → List (ℚ × List ℚ)
  | 0, _ => []
  | w + 1, rows =>
      match extractHardPivot rows with
      | some (piv, rest) =>
          (0, piv.vals) ::
            (celimW w (rest.map (reduceCRow piv))).map (fun sr => (sr.1, 0 :: sr.2))
      | none =>
          match extractSoftPivot rows with
          | some (piv, rest) =>
              (1, piv.vals) ::
                (celimW w (rest.map (reduceCRow piv))).map (fun sr => (sr.1, 0 :: sr.2))
          | none =>
              (celimW w (rows.map (fun r => ⟨r.sigma, r.vals.drop 1⟩))).map
                (fun sr => (sr.1, 0 :: sr.2))

/-- Modelled from the spec: `ConstrainedNoiseModel::QR` (body not under
`src/`), spec 4.3 and the header comment at `NoiseModel.h` lines 454-463:
rows are paired with their sigmas, eliminated constraint-aware, the leading
`r = min(m,n)` rows are kept, and the returned model carries one sigma per
output row ("can be all zeros, mixed, or not-constrained"). -/
def constrainedQR (sigmas : List ℚ) (Ab : List (List ℚ)) : List (List ℚ) × DiagModel :=
  let w := (Ab.headD []).length
  let r := min Ab.length (w - 1)
  let outs := (celimW w (List.zipWith (fun s v => CRow.mk s v) sigmas Ab)).take r
  (padTo r w (outs.map Prod.snd), ⟨outs.map Prod.fst, (outs.map Prod.fst).map cInv⟩)

/-! ## Scatter (src/linear/Scatter.h)

Only the declarations are under `src/`; the graph-scanning constructor
`Scatter(const GaussianFactorGraph&)` is modelled from the spec. -/

/-- `SlotEntry` (`Scatter.h` lines 33-47): a variable key with its block
dimension, ordered by key. -/
structure SlotEntry where
  key : Nat
  dimension : Nat
deriving DecidableEq

/-- Sorted insert by key, keeping the first dimension seen for a key
(`Scatter` collects the union of keys; the structure stays sorted by key,
`SlotEntry::operator<`). -/
def scInsert (k d : Nat) : List SlotEntry → List SlotEntry
  | [] => [⟨k, d⟩]
  | e :: es =>
      if k < e.key then ⟨k, d⟩ :: e :: es
      else if k = e.key then e :: es
      else e :: scInsert k d es

/-- Modelled from the spec: `Scatter(const GaussianFactorGraph&)` (body not
under `src/`), spec 4.2: "built by scanning a factor graph and collecting the
sorted union of all variable keys with their dimensions, inferred from the
factors that mention them".  A factor is its list of `(key, dimension)`
pairs. -/
def scatterFromGraph (factors : List (List (Nat × Nat))) : List SlotEntry :=
  factors.foldl (fun acc f => f.foldl (fun acc2 kd => scInsert kd.1 kd.2 acc2) acc) []

/-- A `(key, dimension)` pair is mentioned by some factor of the graph. -/
def mentions (factors : List (List (Nat × Nat))) (k d : Nat) : Prop :=
  ∃ f ∈ factors, (k, d) ∈ f

/-! ### List helper lemmas -/

theorem getD_set_self {α : Type} (d v : α) :
    ∀ (l : List α) (i : Nat), i < l.length → (l.set i v).getD i d = v := by
  intro l
  induction l with
  | nil => intro i h; simp at h
  | cons a as ih =>
      intro i h
      cases i with
      | zero => simp [List.set]
      | succ j =>
          simp only [List.set, List.getD_cons_succ]
          exact ih j (by simpa using h)

theorem getD_set_ne {α : Type} (d v : α) :
    ∀ (l : List α) (i j : Nat), i ≠ j → (l.set i v).getD j d = l.getD j d := by
  intro l
  induction l with
  | nil => intro i j _; simp [List.set]
  | cons a as ih =>
      intro i j hij
      cases i with
      | zero =>
          cases j with
          | zero => exact absurd rfl hij
          | succ j' => simp [List.set]
      | succ i' =>
          cases j with
          | zero => simp [List.set]
          | succ j' =>
              simp only [List.set, List.getD_cons_succ]
              exact ih i' j' (by omega)

theorem getD_replicate_self {α : Type} (d : α) :
    ∀ (n i : Nat), (List.replicate n d).getD i d = d := by
  intro n
  induction n with
  | zero => intro i; simp
  | succ n ih =>
      intro i
      cases i with
      | zero => simp [List.replicate]
      | succ j => simp [List.replicate, ih j]

theorem slookup_eq_none_of_not_mem (k : Nat) :
    ∀ m : SlotMap, k ∉ mkeys m → slookup k m = none := by
  intro m
  induction m with
  | nil => intro _; rfl
  | cons p rest ih =>
      intro h
      obtain ⟨k', v⟩ := p
      have hk : k ≠ k' := by
        intro he; exact h (by simp [mkeys, he])
      have hrest : k ∉ mkeys rest := by
        intro hm; exact h (by simp [mkeys] at hm ⊢; exact Or.inr hm)
      simp [slookup, hk, ih hrest]

theorem mkeys_cons (k : Nat) (v : List Int) (rest : SlotMap) :
    mkeys ((k, v) :: rest) = k :: mkeys rest := rfl

theorem slookup_slotUpsert_ne (t k : Nat) (base : List Int) (pos : Nat) (slot : Int)
    (hne : t ≠ k) :
    ∀ m : SlotMap, slookup t (slotUpsert k base pos slot m) = slookup t m := by
  intro m
  induction m with
  | nil => simp [slotUpsert, slookup, hne]
  | cons p rest ih =>
      obtain ⟨k', v⟩ := p
      by_cases h1 : k < k'
      · simp [slotUpsert, h1, slookup, hne]
      · by_cases h2 : k = k'
        · subst h2
          simp [slotUpsert, h1, slookup, hne]
        · simp [slotUpsert, h1, h2, slookup, ih]

theorem mem_mkeys_slotUpsert (t k : Nat) (base : List Int) (pos : Nat) (slot : Int) :
    ∀ m : SlotMap, t ∈ mkeys (slotUpsert k base pos slot m) → t = k ∨ t ∈ mkeys m := by
  intro m
  induction m with
  | nil =>
      intro h
      rw [show slotUpsert k base pos slot [] = [(k, base.set pos slot)] from rfl,
        mkeys_cons, List.mem_cons] at h
      rcases h with h | h
      · exact Or.inl h
      · simp [mkeys] at h
  | cons p rest ih =>
      obtain ⟨k', v⟩ := p
      intro h
      by_cases h1 : k < k'
      · rw [show slotUpsert k base pos slot ((k', v) :: rest) =
            (k, base.set pos slot) :: (k', v) :: rest by simp [slotUpsert, h1],
          mkeys_cons, mkeys_cons, List.mem_cons, List.mem_cons] at h
        rcases h with h | h
        · exact Or.inl h
        · exact Or.inr (by rw [mkeys_cons, List.mem_cons]; exact h)
      · by_cases h2 : k = k'
        · subst h2
          rw [show slotUpsert k base pos slot ((k, v) :: rest) =
              (k, v.set pos slot) :: rest by simp [slotUpsert, h1],
            mkeys_cons, List.mem_cons] at h
          rcases h with h | h
          · exact Or.inl h
          · exact Or.inr (by rw [mkeys_cons, List.mem_cons]; exact Or.inr h)
        · rw [show slotUpsert k base pos slot ((k', v) :: rest) =
              (k', v) :: slotUpsert k base pos slot rest by simp [slotUpsert, h1, h2],
            mkeys_cons, List.mem_cons] at h
          rcases h with h | h
          · exact Or.inr (by rw [mkeys_cons, List.mem_cons]; exact Or.inl h)
          · rcases ih h with h' | h'
            · exact Or.inl h'
            · exact Or.inr (by rw [mkeys_cons, List.mem_cons]; exact Or.inr h')

theorem pairwise_mkeys_slotUpsert (k : Nat) (base : List Int) (pos : Nat) (slot : Int) :
    ∀ m : SlotMap, (mkeys m).Pairwise (· < ·) →
      (mkeys (slotUpsert k base pos slot m)).Pairwise (· < ·) := by
  intro m
  induction m with
  | nil =>
      intro _
      rw [show slotUpsert k base pos slot [] = [(k, base.set pos slot)] from rfl]
      simp [mkeys]
  | cons p rest ih =>
      obtain ⟨k', v⟩ := p
      intro hp
      rw [mkeys_cons, List.pairwise_cons] at hp
      obtain ⟨hlt, hrest⟩ := hp
      by_cases h1 : k < k'
      · rw [show slotUpsert k base pos slot ((k', v) :: rest) =
            (k, base.set pos slot) :: (k', v) :: rest by simp [slotUpsert, h1],
          mkeys_cons, mkeys_cons, List.pairwise_cons, List.pairwise_cons]
        refine ⟨?_, hlt, hrest⟩
        intro x hx
        rw [List.mem_cons] at hx
        rcases hx with hx | hx
        · omega
        · have := hlt x hx; omega
      · by_cases h2 : k = k'
        · subst h2
          rw [show slotUpsert k base pos slot ((k, v) :: rest) =
              (k, v.set pos slot) :: rest by simp [slotUpsert, h1],
            mkeys_cons, List.pairwise_cons]
          exact ⟨hlt, hrest⟩
        · rw [show slotUpsert k base pos slot ((k', v) :: rest) =
              (k', v) :: slotUpsert k base pos slot rest by simp [slotUpsert, h1, h2],
            mkeys_cons, List.pairwise_cons]
          refine ⟨?_, ih hrest⟩
          intro x hx
          rcases mem_mkeys_slotUpsert x k base pos slot rest hx with h' | h'
          · subst h'; omega
          · exact hlt x h'

theorem slookup_slotUpsert_self (k : Nat) (base : List Int) (pos : Nat) (slot : Int) :
    ∀ m : SlotMap, (mkeys m).Pairwise (· < ·) →
      slookup k (slotUpsert k base pos slot m) =
        some (((slookup k m).getD base).set pos slot) := by
  intro m
  induction m with
  | nil => simp [slotUpsert, slookup]
  | cons p rest ih =>
      obtain ⟨k', v⟩ := p
      intro hp
      rw [mkeys_cons, List.pairwise_cons] at hp
      obtain ⟨hlt, hrest⟩ := hp
      by_cases h1 : k < k'
      · have hk : k ≠ k' := by omega
        have hnm : k ∉ mkeys rest := by
          intro hm
          have := hlt k hm; omega
        simp [slotUpsert, h1, slookup, hk, slookup_eq_none_of_not_mem k rest hnm]
      · by_cases h2 : k = k'
        · subst h2
          simp [slotUpsert, h1, slookup]
        · simp [slotUpsert, h1, h2, slookup, ih hrest]

theorem pairwise_mkeys_processKeys (n pos : Nat) :
    ∀ (keys : List Nat) (s : Nat) (m : SlotMap), (mkeys m).Pairwise (· < ·) →
      (mkeys (processKeys n pos s keys m)).Pairwise (· < ·) := by
  intro keys
  induction keys with
  | nil => intro s m hm; exact hm
  | cons k' ks ih =>
      intro s m hm
      exact ih (s + 1) _ (pairwise_mkeys_slotUpsert k' _ pos _ m hm)

theorem slookup_processKeys (n pos k : Nat) :
    ∀ (keys : List Nat) (s : Nat) (m : SlotMap), (mkeys m).Pairwise (· < ·) →
      slookup k (processKeys n pos s keys m) =
        if k ∈ keys then
          some (((slookup k m).getD (List.replicate n EmptySlot)).set pos
            (Int.ofNat (s + lastIdxOf k keys)))
        else slookup k m := by
  intro keys
  induction keys with
  | nil => intro s m _; simp [processKeys]
  | cons k' ks ih =>
      intro s m hm
      have hm1 : (mkeys (slotUpsert k' (List.replicate n EmptySlot) pos (Int.ofNat s)
          m)).Pairwise (· < ·) := pairwise_mkeys_slotUpsert k' _ pos _ m hm
      rw [show processKeys n pos s (k' :: ks) m =
          processKeys n pos (s + 1) ks
            (slotUpsert k' (List.replicate n EmptySlot) pos (Int.ofNat s) m) from rfl,
        ih (s + 1) _ hm1]
      by_cases hks : k ∈ ks
      · rw [if_pos hks, if_pos (List.mem_cons.mpr (Or.inr hks))]
        have hlast : lastIdxOf k (k' :: ks) = lastIdxOf k ks + 1 := by
          simp [lastIdxOf, hks]
        rw [hlast]
        have harith : s + 1 + lastIdxOf k ks = s + (lastIdxOf k ks + 1) := by omega
        rw [harith]
        by_cases hkk : k = k'
        · subst hkk
          rw [slookup_slotUpsert_self k _ pos _ m hm]
          simp [List.set_set]
        · rw [slookup_slotUpsert_ne k k' _ pos _ hkk m]
      · rw [if_neg hks]
        by_cases hkk : k = k'
        · subst hkk
          rw [if_pos (List.mem_cons.mpr (Or.inl rfl))]
          have hlast : lastIdxOf k (k :: ks) = 0 := by
            simp [lastIdxOf, hks]
          rw [hlast, Nat.add_zero, slookup_slotUpsert_self k _ pos _ m hm]
        · rw [if_neg (by simp [List.mem_cons, hkk, hks])]
          exact slookup_slotUpsert_ne k k' _ pos _ hkk m

theorem pairwise_mkeys_variableSlotsGo (n : Nat) :
    ∀ (fs : List (List Nat)) (pos : Nat) (m : SlotMap), (mkeys m).Pairwise (· < ·) →
      (mkeys (variableSlotsGo n pos fs m)).Pairwise (· < ·) := by
  intro fs
  induction fs with
  | nil => intro pos m hm; exact hm
  | cons f fs ih =>
      intro pos m hm
      exact ih (pos + 1) _ (pairwise_mkeys_processKeys n pos f 0 m hm)

theorem pairwise_mkeys_variableSlots (factors : List (List Nat)) :
    (mkeys (variableSlots factors)).Pairwise (· < ·) :=
  pairwise_mkeys_variableSlotsGo factors.length factors 0 [] (by simp [mkeys])

theorem slookup_variableSlotsGo_some (n k : Nat) :
    ∀ (fs : List (List Nat)) (pos : Nat) (m : SlotMap) (L : List Int),
      (mkeys m).Pairwise (· < ·) → slookup k m = some L →
      slookup k (variableSlotsGo n pos fs m) = some (applySlots k pos fs L) := by
  intro fs
  induction fs with
  | nil => intro pos m L _ hL; simpa [variableSlotsGo, applySlots] using hL
  | cons f fs ih =>
      intro pos m L hm hL
      rw [show variableSlotsGo n pos (f :: fs) m =
          variableSlotsGo n (pos + 1) fs (processKeys n pos 0 f m) from rfl]
      have hm1 : (mkeys (processKeys n pos 0 f m)).Pairwise (· < ·) :=
        pairwise_mkeys_processKeys n pos f 0 m hm
      have hL1 : slookup k (processKeys n pos 0 f m) =
          some (if k ∈ f then L.set pos (Int.ofNat (lastIdxOf k f)) else L) := by
        rw [slookup_processKeys n pos k f 0 m hm]
        by_cases hkf : k ∈ f
        · simp [hkf, hL]
        · simp [hkf, hL]
      rw [ih (pos + 1) _ _ hm1 hL1]
      rfl

theorem slookup_variableSlotsGo_none (n k : Nat) :
    ∀ (fs : List (List Nat)) (pos : Nat) (m : SlotMap),
      (mkeys m).Pairwise (· < ·) → slookup k m = none →
      slookup k (variableSlotsGo n pos fs m) =
        if ∃ f ∈ fs, k ∈ f then
          some (applySlots k pos fs (List.replicate n EmptySlot))
        else none := by
  intro fs
  induction fs with
  | nil => intro pos m _ hL; simpa [variableSlotsGo] using hL
  | cons f fs ih =>
      intro pos m hm hL
      rw [show variableSlotsGo n pos (f :: fs) m =
          variableSlotsGo n (pos + 1) fs (processKeys n pos 0 f m) from rfl]
      have hm1 : (mkeys (processKeys n pos 0 f m)).Pairwise (· < ·) :=
        pairwise_mkeys_processKeys n pos f 0 m hm
      by_cases hkf : k ∈ f
      · have hL1 : slookup k (processKeys n pos 0 f m) =
            some ((List.replicate n EmptySlot).set pos (Int.ofNat (lastIdxOf k f))) := by
          rw [slookup_processKeys n pos k f 0 m hm]
          simp [hkf, hL]
        rw [slookup_variableSlotsGo_some n k fs (pos + 1) _ _ hm1 hL1]
        rw [if_pos ⟨f, List.mem_cons.mpr (Or.inl rfl), hkf⟩]
        rw [show applySlots k pos (f :: fs) (List.replicate n EmptySlot) =
            applySlots k (pos + 1) fs
              ((List.replicate n EmptySlot).set pos (Int.ofNat (lastIdxOf k f)))
          by simp [applySlots, hkf]]
      · have hL1 : slookup k (processKeys n pos 0 f m) = none := by
          rw [slookup_processKeys n pos k f 0 m hm]
          simp [hkf, hL]
        rw [ih (pos + 1) _ hm1 hL1]
        have hcond : (∃ g ∈ f :: fs, k ∈ g) ↔ (∃ g ∈ fs, k ∈ g) := by
          constructor
          · rintro ⟨g, hg, hkg⟩
            rcases List.mem_cons.mp hg with rfl | hg'
            · exact absurd hkg hkf
            · exact ⟨g, hg', hkg⟩
          · rintro ⟨g, hg, hkg⟩
            exact ⟨g, List.mem_cons.mpr (Or.inr hg), hkg⟩
        have happ : applySlots k pos (f :: fs) (List.replicate n EmptySlot) =
            applySlots k (pos + 1) fs (List.replicate n EmptySlot) := by
          simp [applySlots, hkf]
        by_cases hex : ∃ g ∈ fs, k ∈ g
        · rw [if_pos hex, if_pos (hcond.mpr hex), happ]
        · rw [if_neg hex, if_neg (fun h => hex (hcond.mp h))]

theorem slookup_variableSlots (factors : List (List Nat)) (k : Nat) :
    slookup k (variableSlots factors) =
      if ∃ f ∈ factors, k ∈ f then
        some (applySlots k 0 factors (List.replicate factors.length EmptySlot))
      else none :=
  slookup_variableSlotsGo_none factors.length k factors 0 [] (by simp [mkeys]) rfl

theorem applySlots_length (k : Nat) :
    ∀ (fs : List (List Nat)) (pos : Nat) (L : List Int),
      (applySlots k pos fs L).length = L.length := by
  intro fs
  induction fs with
  | nil => intro pos L; rfl
  | cons f fs ih =>
      intro pos L
      rw [show applySlots k pos (f :: fs) L = applySlots k (pos + 1) fs
          (if k ∈ f then L.set pos (Int.ofNat (lastIdxOf k f)) else L) from rfl, ih]
      by_cases hkf : k ∈ f <;> simp [hkf]

theorem applySlots_getD (k : Nat) :
    ∀ (fs : List (List Nat)) (pos : Nat) (L : List Int) (i : Nat),
      pos + fs.length ≤ L.length →
      (applySlots k pos fs L).getD i EmptySlot =
        if pos ≤ i ∧ i - pos < fs.length ∧ k ∈ fs.getD (i - pos) [] then
          Int.ofNat (lastIdxOf k (fs.getD (i - pos) []))
        else L.getD i EmptySlot := by
  intro fs
  induction fs with
  | nil =>
      intro pos L i _
      simp [applySlots]
  | cons f fs ih =>
      intro pos L i hlen
      have hlenN : pos + fs.length + 1 ≤ L.length := by
        simp only [List.length_cons] at hlen; omega
      have hlenL' : (if k ∈ f then L.set pos (Int.ofNat (lastIdxOf k f)) else L).length
          = L.length := by
        by_cases hkf : k ∈ f <;> simp [hkf]
      have hlen' : pos + 1 + fs.length ≤
          (if k ∈ f then L.set pos (Int.ofNat (lastIdxOf k f)) else L).length := by
        rw [hlenL']; omega
      rw [show applySlots k pos (f :: fs) L = applySlots k (pos + 1) fs
          (if k ∈ f then L.set pos (Int.ofNat (lastIdxOf k f)) else L) from rfl,
        ih (pos + 1) _ i hlen']
      by_cases hkf : k ∈ f
      · simp only [if_pos hkf]
        rcases Nat.lt_trichotomy i pos with hip | hip | hip
        · have hC1 : ¬(pos + 1 ≤ i ∧ i - (pos + 1) < fs.length ∧
              k ∈ fs.getD (i - (pos + 1)) []) := by
            rintro ⟨h1, -, -⟩; omega
          have hC2 : ¬(pos ≤ i ∧ i - pos < (f :: fs).length ∧
              k ∈ (f :: fs).getD (i - pos) []) := by
            rintro ⟨h1, -, -⟩; omega
          rw [if_neg hC1, if_neg hC2]
          exact getD_set_ne EmptySlot _ L pos i (by omega)
        · subst hip
          have hgetD : (f :: fs).getD (i - i) [] = f := by
            rw [Nat.sub_self]; rfl
          have hC1 : ¬(i + 1 ≤ i ∧ i - (i + 1) < fs.length ∧
              k ∈ fs.getD (i - (i + 1)) []) := by
            rintro ⟨h1, -, -⟩; omega
          have hC2 : i ≤ i ∧ i - i < (f :: fs).length ∧
              k ∈ (f :: fs).getD (i - i) [] := by
            refine ⟨Nat.le_refl i, ?_, ?_⟩
            · simp
            · rw [hgetD]; exact hkf
          rw [if_neg hC1, if_pos hC2, hgetD]
          exact getD_set_self EmptySlot _ L i (by omega)
        · have hsub : i - pos = (i - (pos + 1)) + 1 := by omega
          have hgetD : (f :: fs).getD (i - pos) [] = fs.getD (i - (pos + 1)) [] := by
            rw [hsub]; rfl
          by_cases hC1 : pos + 1 ≤ i ∧ i - (pos + 1) < fs.length ∧
              k ∈ fs.getD (i - (pos + 1)) []
          · have hC2 : pos ≤ i ∧ i - pos < (f :: fs).length ∧
                k ∈ (f :: fs).getD (i - pos) [] := by
              obtain ⟨h1, h2, h3⟩ := hC1
              refine ⟨by omega, ?_, by rw [hgetD]; exact h3⟩
              simp only [List.length_cons]; omega
            rw [if_pos hC1, if_pos hC2, hgetD]
          · have hC2 : ¬(pos ≤ i ∧ i - pos < (f :: fs).length ∧
                k ∈ (f :: fs).getD (i - pos) []) := by
              rintro ⟨h1, h2, h3⟩
              refine hC1 ⟨by omega, ?_, by rw [← hgetD]; exact h3⟩
              simp only [List.length_cons] at h2; omega
            rw [if_neg hC1, if_neg hC2]
            exact getD_set_ne EmptySlot _ L pos i (by omega)
      · simp only [if_neg hkf]
        rcases Nat.lt_trichotomy i pos with hip | hip | hip
        · have hC1 : ¬(pos + 1 ≤ i ∧ i - (pos + 1) < fs.length ∧
              k ∈ fs.getD (i - (pos + 1)) []) := by
            rintro ⟨h1, -, -⟩; omega
          have hC2 : ¬(pos ≤ i ∧ i - pos < (f :: fs).length ∧
              k ∈ (f :: fs).getD (i - pos) []) := by
            rintro ⟨h1, -, -⟩; omega
          rw [if_neg hC1, if_neg hC2]
        · subst hip
          have hgetD : (f :: fs).getD (i - i) [] = f := by
            rw [Nat.sub_self]; rfl
          have hC1 : ¬(i + 1 ≤ i ∧ i - (i + 1) < fs.length ∧
              k ∈ fs.getD (i - (i + 1)) []) := by
            rintro ⟨h1, -, -⟩; omega
          have hC2 : ¬(i ≤ i ∧ i - i < (f :: fs).length ∧
              k ∈ (f :: fs).getD (i - i) []) := by
            rintro ⟨-, -, h3⟩
            rw [hgetD] at h3
            exact hkf h3
          rw [if_neg hC1, if_neg hC2]
        · have hsub : i - pos = (i - (pos + 1)) + 1 := by omega
          have hgetD : (f :: fs).getD (i - pos) [] = fs.getD (i - (pos + 1)) [] := by
            rw [hsub]; rfl
          by_cases hC1 : pos + 1 ≤ i ∧ i - (pos + 1) < fs.length ∧
              k ∈ fs.getD (i - (pos + 1)) []
          · have hC2 : pos ≤ i ∧ i - pos < (f :: fs).length ∧
                k ∈ (f :: fs).getD (i - pos) [] := by
              obtain ⟨h1, h2, h3⟩ := hC1
              refine ⟨by omega, ?_, by rw [hgetD]; exact h3⟩
              simp only [List.length_cons]; omega
            rw [if_pos hC1, if_pos hC2, hgetD]
          · have hC2 : ¬(pos ≤ i ∧ i - pos < (f :: fs).length ∧
                k ∈ (f :: fs).getD (i - pos) []) := by
              rintro ⟨h1, h2, h3⟩
              refine hC1 ⟨by omega, ?_, by rw [← hgetD]; exact h3⟩
              simp only [List.length_cons] at h2; omega
            rw [if_neg hC1, if_neg hC2]

theorem lastIdxOf_lt_length (k : Nat) :
    ∀ l : List Nat, k ∈ l → lastIdxOf k l < l.length := by
  intro l
  induction l with
  | nil => intro h; simp at h
  | cons a as ih =>
      intro h
      by_cases has : k ∈ as
      · simp only [lastIdxOf, if_pos has, List.length_cons]
        exact Nat.succ_lt_succ (ih has)
      · simp only [lastIdxOf, if_neg has, List.length_cons]
        by_cases hka : k = a <;> simp [hka]

theorem getD_lastIdxOf (k : Nat) :
    ∀ l : List Nat, k ∈ l → l.getD (lastIdxOf k l) 0 = k := by
  intro l
  induction l with
  | nil => intro h; simp at h
  | cons a as ih =>
      intro h
      by_cases has : k ∈ as
      · simp only [lastIdxOf, if_pos has, List.getD_cons_succ]
        exact ih has
      · have hka : k = a := by
          rcases List.mem_cons.mp h with h' | h'
          · exact h'
          · exact absurd h' has
        subst hka
        simp [lastIdxOf, has]

theorem lastIdxOf_greatest (k : Nat) :
    ∀ (l : List Nat) (q : Nat), lastIdxOf k l < q → q < l.length → l.getD q 0 ≠ k := by
  intro l
  induction l with
  | nil => intro q _ hq; simp at hq
  | cons a as ih =>
      intro q hlt hq
      by_cases has : k ∈ as
      · simp only [lastIdxOf, if_pos has] at hlt
        obtain ⟨q', rfl⟩ : ∃ q', q = q' + 1 := ⟨q - 1, by omega⟩
        simp only [List.getD_cons_succ]
        exact ih q' (by omega) (by simp only [List.length_cons] at hq; omega)
      · obtain ⟨q', rfl⟩ : ∃ q', q = q' + 1 := by
          refine ⟨q - 1, ?_⟩
          simp only [lastIdxOf, if_neg has] at hlt
          by_cases hka : k = a <;> simp [hka] at hlt <;> omega
        simp only [List.getD_cons_succ]
        intro hc
        have hq' : q' < as.length := by simp only [List.length_cons] at hq; omega
        rw [List.getD_eq_getElem as 0 hq'] at hc
        exact has (hc ▸ List.getElem_mem hq')

theorem lastIdxOf_nodup (k : Nat) :
    ∀ (l : List Nat) (p : Nat), l.Nodup → p < l.length → l.getD p 0 = k →
      lastIdxOf k l = p := by
  intro l
  induction l with
  | nil => intro p _ hp; simp at hp
  | cons a as ih =>
      intro p hnd hp hget
      obtain ⟨hna, hnd'⟩ := List.nodup_cons.mp hnd
      cases p with
      | zero =>
          simp only [List.getD_cons_zero] at hget
          subst hget
          simp [lastIdxOf, hna]
      | succ p' =>
          have hp' : p' < as.length := by simp only [List.length_cons] at hp; omega
          simp only [List.getD_cons_succ] at hget
          have has : k ∈ as := by
            rw [List.getD_eq_getElem as 0 hp'] at hget
            exact hget ▸ List.getElem_mem hp'
          simp only [lastIdxOf, if_pos has]
          rw [ih p' hnd' hp' hget]

theorem slookup_of_mem_sorted :
    ∀ m : SlotMap, (mkeys m).Pairwise (· < ·) → ∀ p ∈ m, slookup p.1 m = some p.2 := by
  intro m
  induction m with
  | nil => intro _ p hp; simp at hp
  | cons q rest ih =>
      intro hm p hp
      obtain ⟨k', v⟩ := q
      rw [mkeys_cons, List.pairwise_cons] at hm
      obtain ⟨hlt, hrest⟩ := hm
      rcases List.mem_cons.mp hp with rfl | hp'
      · simp [slookup]
      · have hne : p.1 ≠ k' := by
          have : p.1 ∈ mkeys rest := by
            simp only [mkeys]
            exact List.mem_map.mpr ⟨p, hp', rfl⟩
          have := hlt p.1 this
          omega
        simp only [slookup, if_neg hne]
        exact ih hrest p hp'

/-! ### Noise-model lemmas and claims C2, C6 -/

theorem getD_zipWith (f : ℚ → ℚ → ℚ) :
    ∀ (as bs : List ℚ) (i : Nat), i < as.length → i < bs.length →
      (List.zipWith f as bs).getD i 0 = f (as.getD i 0) (bs.getD i 0) := by
  intro as
  induction as with
  | nil => intro bs i h _; simp at h
  | cons a as ih =>
      intro bs i ha hb
      cases bs with
      | nil => simp at hb
      | cons b bs =>
          cases i with
          | zero => simp
          | succ j =>
              simp only [List.zipWith_cons_cons, List.getD_cons_succ]
              exact ih bs j (by simpa using ha) (by simpa using hb)

/-- C2: for every Constrained noise model and residual vector `v` of matching
length, `whiten` obeys the per-component rule independently for each component
`i`: when `sigma_i = 0` the output is 0 for a zero input component and the
input component unchanged otherwise (never an infinite value — the result is
an ordinary rational); when `sigma_i > 0` the output is `v_i / sigma_i`,
exactly the Diagonal rule. -/
theorem constrainedWhiten_componentwise (sigmas v : List ℚ) (i : Nat)
    (hlen : v.length = sigmas.length) (hi : i < sigmas.length) :
    (sigmas.getD i 0 = 0 →
      ((v.getD i 0 = 0 → (constrainedWhiten sigmas v).getD i 0 = 0) ∧
       (v.getD i 0 ≠ 0 → (constrainedWhiten sigmas v).getD i 0 = v.getD i 0))) ∧
    (0 < sigmas.getD i 0 →
      (constrainedWhiten sigmas v).getD i 0 = v.getD i 0 / sigmas.getD i 0 ∧
      (constrainedWhiten sigmas v).getD i 0 = (diagWhiten sigmas v).getD i 0) := by
  have hz := getD_zipWith (fun s x => if s = 0 then x else x / s) sigmas v i hi (by omega)
  have hdz := getD_zipWith (fun s x => x / s) sigmas v i hi (by omega)
  have hb1 : (fun (s x : ℚ) => if s = 0 then x else x / s) (sigmas.getD i 0) (v.getD i 0)
      = if sigmas.getD i 0 = 0 then v.getD i 0 else v.getD i 0 / sigmas.getD i 0 := rfl
  have hb2 : (fun (s x : ℚ) => x / s) (sigmas.getD i 0) (v.getD i 0)
      = v.getD i 0 / sigmas.getD i 0 := rfl
  refine ⟨fun hs => ⟨fun hv => ?_, fun _ => ?_⟩, fun hs => ⟨?_, ?_⟩⟩
  · rw [constrainedWhiten, hz, hb1, if_pos hs, hv]
  · rw [constrainedWhiten, hz, hb1, if_pos hs]
  · rw [constrainedWhiten, hz, hb1, if_neg (ne_of_gt hs)]
  · rw [constrainedWhiten, hz, hb1, if_neg (ne_of_gt hs), diagWhiten, hdz, hb2]

theorem constrainedWhiten_componentwise_witness :
    (constrainedWhiten [0, 2] [5, 6]).getD 0 0 = 5 ∧
    (constrainedWhiten [0, 2] [5, 6]).getD 1 0 = 3 := by
  have h0 := (constrainedWhiten_componentwise [0, 2] [5, 6] 0 (by simp) (by simp)).1
      (by norm_num)
  have h1 := (constrainedWhiten_componentwise [0, 2] [5, 6] 1 (by simp) (by simp)).2
      (by norm_num)
  refine ⟨?_, ?_⟩
  · have := h0.2 (by norm_num)
    rw [this]; norm_num
  · rw [h1.1]; norm_num

theorem getD_map_cInv :
    ∀ (l : List ℚ) (i : Nat), i < l.length → (l.map cInv).getD i 0 = cInv (l.getD i 0) := by
  intro l
  induction l with
  | nil => intro i h; simp at h
  | cons a as ih =>
      intro i h
      cases i with
      | zero => simp
      | succ j =>
          simp only [List.map_cons, List.getD_cons_succ]
          exact ih j (by simpa using h)

/-- C6: constructing an unconstrained Diagonal model from a sigma vector with a
component equal to 0 is rejected with an error at construction time, and a
successfully constructed model never holds a bogus inverse-sigma: every stored
inverse-sigma is the genuine finite inverse of a nonzero sigma. -/
theorem DiagonalSigmas_rejects_zero (sigmas : List ℚ) :
    ((0 : ℚ) ∈ sigmas → ∃ e, DiagonalSigmas sigmas = Except.error e) ∧
    (∀ mdl, DiagonalSigmas sigmas = Except.ok mdl →
      mdl.sigmas = sigmas ∧ (0 : ℚ) ∉ mdl.sigmas ∧
      ∀ i, i < mdl.sigmas.length → mdl.invsigmas.getD i 0 * mdl.sigmas.getD i 0 = 1) := by
  constructor
  · intro h0
    exact ⟨_, by rw [DiagonalSigmas, if_pos h0]⟩
  · intro mdl hok
    by_cases h0 : (0 : ℚ) ∈ sigmas
    · rw [DiagonalSigmas, if_pos h0] at hok
      exact absurd hok (by simp)
    · rw [DiagonalSigmas, if_neg h0] at hok
      have hmdl : mdl = ⟨sigmas, sigmas.map cInv⟩ := by
        injection hok with h
        exact h.symm
      subst hmdl
      refine ⟨rfl, h0, ?_⟩
      intro i hi
      simp only at hi ⊢
      rw [getD_map_cInv sigmas i hi]
      have hne : sigmas.getD i 0 ≠ 0 := by
        intro hc
        apply h0
        have : sigmas.getD i 0 ∈ sigmas := by
          rw [List.getD_eq_getElem sigmas 0 hi]
          exact List.getElem_mem hi
        rw [hc] at this
        exact this
      rw [cInv, if_neg hne]
      exact inv_mul_cancel₀ hne

theorem DiagonalSigmas_rejects_zero_witness :
    ∃ e, DiagonalSigmas [0, 2] = Except.error e :=
  (DiagonalSigmas_rejects_zero [0, 2]).1 (by norm_num)

/-! ### Round-trip law (claim C5) -/

theorem dotL_cons (a b : ℚ) (as bs : List ℚ) :
    dotL (a :: as) (b :: bs) = a * b + dotL as bs := by
  simp [dotL]

theorem diag_roundtrip_aux :
    ∀ (sigmas v : List ℚ), sigmas.length = v.length → (∀ s ∈ sigmas, 0 < s) →
      diagUnwhiten sigmas (diagWhiten sigmas v) = v := by
  intro sigmas
  induction sigmas with
  | nil =>
      intro v hlen _
      cases v with
      | nil => rfl
      | cons x xs => simp at hlen
  | cons s ss ih =>
      intro v hlen hpos
      cases v with
      | nil => simp at hlen
      | cons x xs =>
          have hs : s ≠ 0 := ne_of_gt (hpos s (by simp))
          simp only [diagWhiten, diagUnwhiten, List.zipWith_cons_cons]
          rw [div_mul_cancel₀ x hs]
          have := ih xs (by simpa using hlen) (fun t ht => hpos t (by simp [ht]))
          simp only [diagWhiten, diagUnwhiten] at this
          rw [this]

theorem backSolveN_matVec :
    ∀ (n : Nat) (rows : List (List ℚ)) (v : List ℚ),
      rows.length = n → v.length = n → (∀ r ∈ rows, r.length = n) →
      TriNonsing n rows → backSolveN n rows (matVec rows v) = v := by
  intro n
  induction n with
  | zero =>
      intro rows v hr hv _ _
      rw [List.length_eq_zero] at hr hv
      subst hr; subst hv
      rfl
  | succ n ih =>
      intro rows v hr hv hsq htri
      cases rows with
      | nil => simp at hr
      | cons row rest =>
          cases v with
          | nil => simp at hv
          | cons v0 vs =>
              rw [TriNonsing] at htri
              obtain ⟨hd0, hzero, htri'⟩ := htri
              have hrowlen : row.length = n + 1 := hsq row (by simp)
              cases row with
              | nil => simp at hrowlen
              | cons r0 rt =>
                  have hr0 : r0 ≠ 0 := by simpa using hd0
                  -- the trailing rows see only the tail of v
                  have hrest : matVec rest (v0 :: vs) =
                      matVec (rest.map (fun r => r.drop 1)) vs := by
                    simp only [matVec, List.map_map]
                    refine List.map_congr_left ?_
                    intro r hrr
                    have hlenr : r.length = n + 1 := hsq r (by simp [hrr])
                    cases r with
                    | nil => simp at hlenr
                    | cons a at' =>
                        have ha : a = 0 := by simpa using hzero _ hrr
                        simp [Function.comp, dotL_cons, ha]
                  have hxs : backSolveN n (rest.map (fun r => r.drop 1))
                      (matVec (rest.map (fun r => r.drop 1)) vs) = vs := by
                    refine ih _ vs ?_ ?_ ?_ htri'
                    · simp only [List.length_map]
                      simpa using hr
                    · simpa using hv
                    · intro r' hr'
                      obtain ⟨r, hrr, rfl⟩ := List.mem_map.mp hr'
                      have := hsq r (by simp [hrr])
                      simp [this]
                  show backSolveN (n + 1) ((r0 :: rt) :: rest)
                      (dotL (r0 :: rt) (v0 :: vs) :: matVec rest (v0 :: vs)) = v0 :: vs
                  rw [backSolveN, hrest, hxs]
                  simp only [dotL_cons, List.drop_one, List.tail_cons, List.headD_cons]
                  congr 1
                  field_simp

/-- C5: for every Diagonal, Isotropic, or Gaussian noise model with strictly
positive sigmas (for the Gaussian case: a non-singular upper-triangular `R`)
and every vector `v` of the model's dimension, `unwhiten (whiten v) = v` —
`unwhiten` is the exact inverse of `whiten` on non-singular models. -/
theorem whiten_unwhiten_roundtrip :
    (∀ (sigmas v : List ℚ), sigmas.length = v.length → (∀ s ∈ sigmas, 0 < s) →
        diagUnwhiten sigmas (diagWhiten sigmas v) = v) ∧
    (∀ (sigma : ℚ) (v : List ℚ), 0 < sigma →
        isoUnwhiten sigma (isoWhiten sigma v) = v) ∧
    (∀ (R : List (List ℚ)) (v : List ℚ), v.length = R.length →
        (∀ r ∈ R, r.length = R.length) → TriNonsing R.length R →
        gaussUnwhiten R (gaussWhiten R v) = v) := by
  refine ⟨diag_roundtrip_aux, ?_, ?_⟩
  · intro sigma v hs
    have hne : sigma ≠ 0 := ne_of_gt hs
    simp only [isoWhiten, isoUnwhiten, List.map_map]
    have hcomp : ((fun x => x * sigma) ∘ fun x : ℚ => x / sigma) = fun x => x := by
      funext x
      simp [Function.comp, div_mul_cancel₀ x hne]
    rw [hcomp]
    exact List.map_id v
  · intro R v hlen hsq htri
    exact backSolveN_matVec R.length R v rfl hlen hsq htri

theorem whiten_unwhiten_roundtrip_witness :
    diagUnwhiten [2, 3] (diagWhiten [2, 3] [4, 5]) = [4, 5] ∧
    isoUnwhiten 2 (isoWhiten 2 [1, 7]) = [1, 7] ∧
    gaussUnwhiten [[2, 1], [0, 3]] (gaussWhiten [[2, 1], [0, 3]] [1, 2]) = [1, 2] :=
  ⟨whiten_unwhiten_roundtrip.1 [2, 3] [4, 5] (by simp) (by norm_num),
   whiten_unwhiten_roundtrip.2.1 2 [1, 7] (by norm_num),
   whiten_unwhiten_roundtrip.2.2 [[2, 1], [0, 3]] [1, 2] (by simp) (by norm_num)
     (by norm_num [TriNonsing])⟩

/-! ### QR shape (claims C1, C7) -/

theorem getD_getD_map_zero_cons :
    ∀ (l : List (List ℚ)) (i j : Nat),
      ((l.map (fun r => 0 :: r)).getD i []).getD j 0 =
        if j = 0 then 0 else (l.getD i []).getD (j - 1) 0 := by
  intro l
  induction l with
  | nil =>
      intro i j
      cases j <;> simp
  | cons a as ih =>
      intro i j
      cases i with
      | zero => cases j <;> simp
      | succ i' =>
          simp only [List.map_cons, List.getD_cons_succ]
          exact ih i' j

theorem elimW_below_diag :
    ∀ (w : Nat) (rows : List (List ℚ)) (i j : Nat), j < i →
      ((elimW w rows).getD i []).getD j 0 = 0 := by
  intro w
  induction w with
  | zero => intro rows i j _; simp [elimW]
  | succ w ih =>
      intro rows i j hji
      rw [elimW]
      cases hp : extractPivot rows with
      | some pr =>
          obtain ⟨piv, rest⟩ := pr
          simp only
          cases i with
          | zero => omega
          | succ i' =>
              simp only [List.getD_cons_succ]
              rw [getD_getD_map_zero_cons]
              by_cases hj0 : j = 0
              · simp [hj0]
              · rw [if_neg hj0]
                exact ih _ i' (j - 1) (by omega)
      | none =>
          simp only
          rw [getD_getD_map_zero_cons]
          by_cases hj0 : j = 0
          · simp [hj0]
          · rw [if_neg hj0]
            exact ih _ i (j - 1) (by omega)

theorem getD_take {α : Type} (d : α) :
    ∀ (l : List α) (r i : Nat), i < r → (l.take r).getD i d = l.getD i d := by
  intro l
  induction l with
  | nil => intro r i _; simp
  | cons a as ih =>
      intro r i hir
      cases r with
      | zero => omega
      | succ r' =>
          cases i with
          | zero => simp
          | succ i' =>
              simp only [List.take, List.getD_cons_succ]
              exact ih r' i' (by omega)

theorem padTo_length (r w : Nat) (rows : List (List ℚ)) : (padTo r w rows).length = r := by
  simp only [padTo, List.length_append, List.length_take, List.length_replicate]
  omega

theorem getD_replicate_rows (c w idx j : Nat) :
    ((List.replicate c (List.replicate w (0 : ℚ))).getD idx []).getD j 0 = 0 := by
  by_cases h : idx < c
  · rw [List.getD_eq_getElem (List.replicate c (List.replicate w (0 : ℚ))) []
      (by simpa using h)]
    simp [getD_replicate_self]
  · have hlen : (List.replicate c (List.replicate w (0 : ℚ))).length ≤ idx := by
      simpa using Nat.le_of_not_lt h
    rw [List.getD_eq_default _ _ hlen]
    simp

theorem padTo_below_diag (r w : Nat) (rows : List (List ℚ))
    (h : ∀ i j, j < i → (rows.getD i []).getD j 0 = 0) :
    ∀ i j, j < i → (((padTo r w rows).getD i []).getD j 0) = 0 := by
  intro i j hji
  rw [padTo]
  by_cases hi : i < (rows.take r).length
  · rw [List.getD_append (rows.take r) _ [] i hi, getD_take _ rows r i (by
      simp only [List.length_take] at hi
      omega)]
    exact h i j hji
  · rw [List.getD_append_right (rows.take r) _ [] i (Nat.le_of_not_lt hi)]
    exact getD_replicate_rows _ w _ j

/-- C1: for every augmented matrix with `m` rows and `n+1` columns, the
Diagonal-model QR elimination produces a result occupying exactly
`r = min(m,n)` rows with every entry strictly below the diagonal equal to
zero (upper-trapezoidal `[R | d]`), and returns a noise model whose dimension
is exactly that row count `r`. -/
theorem diagQR_shape (sigmas : List ℚ) (Ab : List (List ℚ)) (m n : Nat)
    (hm : Ab.length = m) (hrow : ∀ row ∈ Ab, row.length = n + 1) (hne : Ab ≠ []) :
    (diagQR sigmas Ab).1.length = min m n ∧
    (∀ i j, j < i → (((diagQR sigmas Ab).1.getD i []).getD j 0) = 0) ∧
    (diagQR sigmas Ab).2.dim = min m n := by
  have hw : (Ab.headD []).length = n + 1 := by
    cases Ab with
    | nil => exact absurd rfl hne
    | cons r rs => exact hrow r (by simp)
  rw [diagQR]
  simp only [hw, hm, Nat.add_sub_cancel]
  refine ⟨padTo_length _ _ _, ?_, ?_⟩
  · exact padTo_below_diag _ _ _ (fun i j hji => elimW_below_diag (n + 1) _ i j hji)
  · simp [DiagModel.dim]

theorem diagQR_shape_witness :
    (diagQR [1, 1] [[1, 0, 5], [0, 1, 7]]).1.length = 2 ∧
    (((diagQR [1, 1] [[1, 0, 5], [0, 1, 7]]).1.getD 1 []).getD 0 0) = 0 ∧
    (diagQR [1, 1] [[1, 0, 5], [0, 1, 7]]).2.dim = 2 := by
  have h := diagQR_shape [1, 1] [[1, 0, 5], [0, 1, 7]] 2 2 (by simp)
    (by intro row hr; simp at hr; rcases hr with rfl | rfl <;> simp) (by simp)
  refine ⟨?_, h.2.1 1 0 (by omega), ?_⟩
  · simpa using h.1
  · simpa using h.2.2

/-- C7: QR never raises an error: it is a total function of its input (the
embedding has no error outcome anywhere in the elimination), and non-square,
zero-row, or rank-deficient inputs are expressed structurally — the Diagonal
QR always yields exactly `min(m,n)` output rows, the Constrained QR at most
`min(m,n)` model rows, and a system whose columns have no nonzero pivot
candidate yields strictly fewer model rows than `min(m,n)` rather than a
raised condition. -/
theorem qr_total_on_degenerate (sigmas : List ℚ) (Ab : List (List ℚ)) (m n : Nat)
    (hm : Ab.length = m) (hrow : ∀ row ∈ Ab, row.length = n + 1) :
    (diagQR sigmas Ab).1.length = min m n ∧
    (diagQR sigmas Ab).2.dim = min m n ∧
    (constrainedQR sigmas Ab).2.dim ≤ min m n ∧
    (constrainedQR [1, 1] [[0, 0], [0, 0]]).2.dim < min 2 1 := by
  have hconc : (constrainedQR [1, 1] [[0, 0], [0, 0]]).2.dim < min 2 1 := by
    norm_num [constrainedQR, celimW, extractHardPivot, extractSoftPivot,
      DiagModel.dim]
  cases Ab with
  | nil =>
      have hm0 : 0 = m := by simpa using hm
      subst hm0
      refine ⟨?_, ?_, ?_, hconc⟩
      · simp [diagQR, padTo]
      · simp [diagQR, DiagModel.dim]
      · simp [constrainedQR, DiagModel.dim]
  | cons row0 rows0 =>
      have hw : ((row0 :: rows0).headD []).length = n + 1 := hrow row0 (by simp)
      refine ⟨?_, ?_, ?_, hconc⟩
      · rw [diagQR]
        simp only [hw, hm, Nat.add_sub_cancel]
        exact padTo_length _ _ _
      · rw [diagQR]
        simp only [hw, hm, Nat.add_sub_cancel]
        simp [DiagModel.dim]
      · rw [constrainedQR]
        simp only [hw, hm, Nat.add_sub_cancel, DiagModel.dim, List.length_map,
          List.length_take]
        omega

theorem qr_total_on_degenerate_witness :
    (diagQR [1] [[1, 2, 3, 4]]).1.length = 1 ∧
    (constrainedQR [1] [[1, 2, 3, 4]]).2.dim ≤ 1 := by
  have h := qr_total_on_degenerate [1] [[1, 2, 3, 4]] 1 3 (by simp)
    (by intro row hr; simp at hr; subst hr; simp)
  exact ⟨by simpa using h.1, by simpa using h.2.2.1⟩

/-! ### Constrained elimination policy (claim C3) -/

theorem extractHardPivot_none_iff :
    ∀ rows : List CRow, extractHardPivot rows = none ↔
      ∀ cr ∈ rows, cr.sigma = 0 → cr.vals.headD 0 = 0 := by
  intro rows
  induction rows with
  | nil => simp [extractHardPivot]
  | cons r rs ih =>
      rw [extractHardPivot]
      by_cases hc : r.sigma = 0 ∧ r.vals.headD 0 ≠ 0
      · rw [if_pos hc]
        constructor
        · intro h; simp at h
        · intro hall; exact absurd (hall r (by simp) hc.1) hc.2
      · rw [if_neg hc]
        cases hp : extractHardPivot rs with
        | some pr =>
            obtain ⟨p, rest⟩ := pr
            simp only
            constructor
            · intro h; simp at h
            · intro hall
              have hnone : extractHardPivot rs = none :=
                ih.mpr (fun cr hcr => hall cr (by simp [hcr]))
              rw [hp] at hnone
              simp at hnone
        | none =>
            simp only
            constructor
            · intro _ cr hcr hs0
              rcases List.mem_cons.mp hcr with rfl | hcr'
              · by_contra hh
                exact hc ⟨hs0, hh⟩
              · exact ih.mp hp cr hcr' hs0
            · intro _; trivial

theorem celimW_sigma01 :
    ∀ (w : Nat) (rows : List CRow) (sv : ℚ × List ℚ), sv ∈ celimW w rows →
      sv.1 = 0 ∨ sv.1 = 1 := by
  intro w
  induction w with
  | zero => intro rows sv h; simp [celimW] at h
  | succ w ih =>
      intro rows sv h
      rw [celimW] at h
      cases hp : extractHardPivot rows with
      | some pr =>
          obtain ⟨piv, rest⟩ := pr
          rw [hp] at h
          simp only at h
          rcases List.mem_cons.mp h with rfl | h'
          · exact Or.inl rfl
          · obtain ⟨sr, hsr, rfl⟩ := List.mem_map.mp h'
            exact ih _ sr hsr
      | none =>
          rw [hp] at h
          cases hq : extractSoftPivot rows with
          | some pr =>
              obtain ⟨piv, rest⟩ := pr
              rw [hq] at h
              simp only at h
              rcases List.mem_cons.mp h with rfl | h'
              · exact Or.inr rfl
              · obtain ⟨sr, hsr, rfl⟩ := List.mem_map.mp h'
                exact ih _ sr hsr
          | none =>
              rw [hq] at h
              simp only at h
              obtain ⟨sr, hsr, rfl⟩ := List.mem_map.mp h
              exact ih _ sr hsr

/-- C3: at every state of the constrained elimination (every list of working
rows, i.e. every recursive call), if some remaining hard-constraint row
(zero sigma) has a nonzero entry in the current pivot column then the output
row produced there carries sigma 0 in the returned model (its direction did
not mix with any nonzero-sigma row); an output row can carry a nonzero sigma
only when no hard row had a nonzero entry in that column, i.e. only when the
pivot direction was formed from rows of nonzero sigma; and every sigma of the
model returned by `constrainedQR` is either 0 (still hard) or 1 (a regular
unit row). -/
theorem constrainedQR_hard_policy (w : Nat) (rows : List CRow)
    (sigmas : List ℚ) (Ab : List (List ℚ)) :
    ((∃ cr ∈ rows, cr.sigma = 0 ∧ cr.vals.headD 0 ≠ 0) →
      ∃ v rest, celimW (w + 1) rows = (0, v) :: rest) ∧
    (∀ s v rest, celimW (w + 1) rows = (s, v) :: rest → s ≠ 0 →
      ∀ cr ∈ rows, cr.sigma = 0 → cr.vals.headD 0 = 0) ∧
    (∀ s ∈ (constrainedQR sigmas Ab).2.sigmas, s = 0 ∨ s = 1) := by
  refine ⟨?_, ?_, ?_⟩
  · rintro ⟨cr, hmem, hs0, hh⟩
    have hne : extractHardPivot rows ≠ none := by
      rw [Ne, extractHardPivot_none_iff]
      intro hall
      exact hh (hall cr hmem hs0)
    obtain ⟨⟨piv, prest⟩, hp⟩ : ∃ pr, extractHardPivot rows = some pr := by
      cases hcase : extractHardPivot rows with
      | none => exact absurd hcase hne
      | some pr => exact ⟨pr, rfl⟩
    exact ⟨piv.vals, _, by rw [celimW, hp]⟩
  · intro s v rest heq hsne cr hmem hs0
    cases hp : extractHardPivot rows with
    | some pr =>
        obtain ⟨piv, prest⟩ := pr
        rw [celimW, hp] at heq
        simp only at heq
        injection heq with h1 _
        have hs : (0 : ℚ) = s := congrArg Prod.fst h1
        exact absurd hs.symm hsne
    | none =>
        exact (extractHardPivot_none_iff rows).mp hp cr hmem hs0
  · intro s hs
    simp only [constrainedQR] at hs
    obtain ⟨sv, hsv, rfl⟩ := List.mem_map.mp hs
    exact celimW_sigma01 _ _ sv (List.mem_of_mem_take hsv)

theorem constrainedQR_hard_policy_witness :
    ∃ v rest, celimW 2 [⟨0, [2, 3]⟩, ⟨1, [1, 1]⟩] = (0, v) :: rest :=
  (constrainedQR_hard_policy 1 [⟨0, [2, 3]⟩, ⟨1, [1, 1]⟩] [] []).1
    ⟨⟨0, [2, 3]⟩, by simp, rfl, by norm_num⟩

/-! ### VariableSlots claims (C4, C9, C10) -/

/-- C4: for every ordered collection of factors (no duplicate keys inside a
factor), the `VariableSlots` map binds each involved key `k` to a sequence of
length equal to the factor count whose entry at row-block position `i` is the
local column-block position of `k` inside factor `i` when factor `i` involves
`k`, and the sentinel `Empty` otherwise. -/
theorem variableSlots_slot_correct (factors : List (List Nat))
    (hnd : ∀ f ∈ factors, f.Nodup) :
    (∀ k i p, i < factors.length → p < (factors.getD i []).length →
        (factors.getD i []).getD p 0 = k →
        ∃ L, slookup k (variableSlots factors) = some L ∧
          L.length = factors.length ∧ L.getD i EmptySlot = Int.ofNat p) ∧
    (∀ k L i, slookup k (variableSlots factors) = some L → k ∉ factors.getD i [] →
        L.getD i EmptySlot = EmptySlot) := by
  constructor
  · intro k i p hi hp hget
    have hfmem : factors.getD i [] ∈ factors := by
      rw [List.getD_eq_getElem factors [] hi]
      exact List.getElem_mem hi
    have hkmem : k ∈ factors.getD i [] := by
      rw [List.getD_eq_getElem _ 0 hp] at hget
      exact hget ▸ List.getElem_mem hp
    have hex : ∃ f ∈ factors, k ∈ f := ⟨factors.getD i [], hfmem, hkmem⟩
    refine ⟨applySlots k 0 factors (List.replicate factors.length EmptySlot), ?_, ?_, ?_⟩
    · rw [slookup_variableSlots, if_pos hex]
    · rw [applySlots_length, List.length_replicate]
    · rw [applySlots_getD k factors 0 _ i (by simp)]
      rw [if_pos ⟨Nat.zero_le i, by simpa using hi, by simpa using hkmem⟩]
      simp only [Nat.sub_zero]
      rw [lastIdxOf_nodup k (factors.getD i []) p (hnd _ hfmem) hp hget]
  · intro k L i hlook hnot
    rw [slookup_variableSlots] at hlook
    by_cases hex : ∃ f ∈ factors, k ∈ f
    · rw [if_pos hex] at hlook
      injection hlook with hL
      subst hL
      rw [applySlots_getD k factors 0 _ i (by simp)]
      rw [if_neg (by rintro ⟨-, -, h3⟩; simp only [Nat.sub_zero] at h3; exact hnot h3)]
      exact getD_replicate_self EmptySlot _ i
    · rw [if_neg hex] at hlook
      simp at hlook

theorem variableSlots_slot_correct_witness :
    ∃ L, slookup 3 (variableSlots [[1, 3], [1, 5], [3, 5]]) = some L ∧
      L.length = 3 ∧ L.getD 0 EmptySlot = Int.ofNat 1 := by
  have h := (variableSlots_slot_correct [[1, 3], [1, 5], [3, 5]] (by decide)).1
    3 0 1 (by decide) (by decide) (by decide)
  simpa using h

/-- C9: for every factor collection, the `VariableSlots` structure is a map
keyed in strictly ascending key order, every stored sequence has exactly
`factorCount` entries, and every entry is non-negative and is either the
sentinel `Empty` or strictly less than the local column-block count of its
factor.  (The embedding is a pure function of the factor list, which is the
shallow form of "built once and never mutated afterwards".) -/
theorem variableSlots_invariants (factors : List (List Nat)) :
    (mkeys (variableSlots factors)).Pairwise (· < ·) ∧
    ∀ p ∈ variableSlots factors,
      p.2.length = factors.length ∧
      ∀ i : Nat, 0 ≤ p.2.getD i EmptySlot ∧
        (p.2.getD i EmptySlot = EmptySlot ∨
          p.2.getD i EmptySlot < ((factors.getD i []).length : Int)) := by
  refine ⟨pairwise_mkeys_variableSlots factors, ?_⟩
  intro p hp
  have hlook := slookup_of_mem_sorted _ (pairwise_mkeys_variableSlots factors) p hp
  rw [slookup_variableSlots] at hlook
  by_cases hex : ∃ f ∈ factors, p.1 ∈ f
  · rw [if_pos hex] at hlook
    injection hlook with hL
    have hlen : p.2.length = factors.length := by
      rw [← hL, applySlots_length, List.length_replicate]
    refine ⟨hlen, ?_⟩
    intro i
    rw [← hL, applySlots_getD p.1 factors 0 _ i (by simp)]
    by_cases hc : 0 ≤ i ∧ i - 0 < factors.length ∧ p.1 ∈ factors.getD (i - 0) []
    · rw [if_pos hc]
      obtain ⟨-, hilt, hmem⟩ := hc
      simp only [Nat.sub_zero] at hmem ⊢
      constructor
      · exact Int.ofNat_nonneg _
      · right
        have := lastIdxOf_lt_length p.1 (factors.getD i []) hmem
        rw [Int.ofNat_eq_coe]
        exact_mod_cast this
    · rw [if_neg hc, getD_replicate_self]
      refine ⟨by norm_num [EmptySlot], Or.inl rfl⟩
  · rw [if_neg hex] at hlook
    simp at hlook

theorem variableSlots_invariants_witness :
    ((3 : Nat), ([1, EmptySlot, 0] : List Int)) ∈ variableSlots [[1, 3], [1, 5], [3, 5]] ∧
    ([1, EmptySlot, 0] : List Int).length = 3 ∧
    (0 : Int) ≤ ([1, EmptySlot, 0] : List Int).getD 1 EmptySlot := by
  have hmem : ((3 : Nat), ([1, EmptySlot, 0] : List Int)) ∈
      variableSlots [[1, 3], [1, 5], [3, 5]] := by decide
  have h := (variableSlots_invariants [[1, 3], [1, 5], [3, 5]]).2
    (3, [1, EmptySlot, 0]) hmem
  exact ⟨hmem, h.1, (h.2 1).1⟩

/-- C10: when a single factor lists the same key at more than one local
position, the recorded slot is the last (largest) local position at which the
key occurs in that factor — each later occurrence overwrites the earlier one —
and the construction is total (no error is signalled). -/
theorem variableSlots_duplicate_last_wins (factors : List (List Nat)) (k i : Nat)
    (hi : i < factors.length) (hk : k ∈ factors.getD i []) :
    ∃ L p, slookup k (variableSlots factors) = some L ∧
      L.getD i EmptySlot = Int.ofNat p ∧
      p < (factors.getD i []).length ∧
      (factors.getD i []).getD p 0 = k ∧
      ∀ q, p < q → q < (factors.getD i []).length → (factors.getD i []).getD q 0 ≠ k := by
  have hfmem : factors.getD i [] ∈ factors := by
    rw [List.getD_eq_getElem factors [] hi]
    exact List.getElem_mem hi
  have hex : ∃ f ∈ factors, k ∈ f := ⟨factors.getD i [], hfmem, hk⟩
  refine ⟨applySlots k 0 factors (List.replicate factors.length EmptySlot),
    lastIdxOf k (factors.getD i []), ?_, ?_, ?_, ?_, ?_⟩
  · rw [slookup_variableSlots, if_pos hex]
  · rw [applySlots_getD k factors 0 _ i (by simp)]
    rw [if_pos ⟨Nat.zero_le i, by simpa using hi, by simpa using hk⟩]
    simp
  · exact lastIdxOf_lt_length k _ hk
  · exact getD_lastIdxOf k _ hk
  · exact fun q hq hql => lastIdxOf_greatest k _ q hq hql

theorem variableSlots_duplicate_last_wins_witness :
    ∃ L p, slookup 7 (variableSlots [[7, 7]]) = some L ∧
      L.getD 0 EmptySlot = Int.ofNat p ∧
      p < ([7, 7] : List Nat).length ∧
      ([7, 7] : List Nat).getD p 0 = 7 ∧
      ∀ q, p < q → q < ([7, 7] : List Nat).length → ([7, 7] : List Nat).getD q 0 ≠ 7 := by
  have h := variableSlots_duplicate_last_wins [[7, 7]] 7 0 (by decide) (by decide)
  simpa using h

/-! ### Scatter (claim C8) -/

theorem mem_scInsert_of_mem (k d : Nat) (e : SlotEntry) :
    ∀ l : List SlotEntry, e ∈ l → e ∈ scInsert k d l := by
  intro l
  induction l with
  | nil => intro h; simp at h
  | cons e' es ih =>
      intro h
      rw [scInsert]
      by_cases h1 : k < e'.key
      · rw [if_pos h1]
        exact List.mem_cons.mpr (Or.inr h)
      · by_cases h2 : k = e'.key
        · rw [if_neg h1, if_pos h2]
          exact h
        · rw [if_neg h1, if_neg h2]
          rcases List.mem_cons.mp h with rfl | h'
          · exact List.mem_cons.mpr (Or.inl rfl)
          · exact List.mem_cons.mpr (Or.inr (ih h'))

theorem mem_scInsert (k d : Nat) (e : SlotEntry) :
    ∀ l : List SlotEntry, e ∈ scInsert k d l → e ∈ l ∨ e = ⟨k, d⟩ := by
  intro l
  induction l with
  | nil =>
      intro h
      simp only [scInsert] at h
      rcases List.mem_singleton.mp h with rfl
      exact Or.inr rfl
  | cons e' es ih =>
      intro h
      rw [scInsert] at h
      by_cases h1 : k < e'.key
      · rw [if_pos h1] at h
        rcases List.mem_cons.mp h with rfl | h'
        · exact Or.inr rfl
        · exact Or.inl h'
      · by_cases h2 : k = e'.key
        · rw [if_neg h1, if_pos h2] at h
          exact Or.inl h
        · rw [if_neg h1, if_neg h2] at h
          rcases List.mem_cons.mp h with rfl | h'
          · exact Or.inl (List.mem_cons.mpr (Or.inl rfl))
          · rcases ih h' with h'' | h''
            · exact Or.inl (List.mem_cons.mpr (Or.inr h''))
            · exact Or.inr h''

theorem exists_key_scInsert (k d : Nat) :
    ∀ l : List SlotEntry, ∃ e ∈ scInsert k d l, e.key = k := by
  intro l
  induction l with
  | nil => exact ⟨⟨k, d⟩, by simp [scInsert]⟩
  | cons e' es ih =>
      rw [scInsert]
      by_cases h1 : k < e'.key
      · rw [if_pos h1]
        exact ⟨⟨k, d⟩, by simp⟩
      · by_cases h2 : k = e'.key
        · rw [if_neg h1, if_pos h2]
          exact ⟨e', by simp [h2]⟩
        · rw [if_neg h1, if_neg h2]
          obtain ⟨e, he, hk⟩ := ih
          exact ⟨e, List.mem_cons.mpr (Or.inr he), hk⟩

theorem pairwise_scInsert (k d : Nat) :
    ∀ l : List SlotEntry, (l.map SlotEntry.key).Pairwise (· < ·) →
      ((scInsert k d l).map SlotEntry.key).Pairwise (· < ·) := by
  intro l
  induction l with
  | nil => intro _; simp [scInsert]
  | cons e' es ih =>
      intro hp
      simp only [List.map_cons, List.pairwise_cons] at hp
      obtain ⟨hlt, hrest⟩ := hp
      rw [scInsert]
      by_cases h1 : k < e'.key
      · rw [if_pos h1]
        simp only [List.map_cons, List.pairwise_cons]
        refine ⟨?_, ?_⟩
        · intro x hx
          rcases List.mem_cons.mp hx with rfl | hx'
          · omega
          · have := hlt x hx'; omega
        · exact ⟨hlt, hrest⟩
      · by_cases h2 : k = e'.key
        · rw [if_neg h1, if_pos h2]
          simp only [List.map_cons, List.pairwise_cons]
          exact ⟨hlt, hrest⟩
        · rw [if_neg h1, if_neg h2]
          simp only [List.map_cons, List.pairwise_cons]
          refine ⟨?_, ih hrest⟩
          intro x hx
          obtain ⟨e, he, rfl⟩ := List.mem_map.mp hx
          rcases mem_scInsert k d e es he with h' | h'
          · exact hlt e.key (List.mem_map.mpr ⟨e, h', rfl⟩)
          · subst h'
            show e'.key < k
            omega

theorem scInner_mem_preserved (f : List (Nat × Nat)) :
    ∀ (acc : List SlotEntry) (e : SlotEntry), e ∈ acc →
      e ∈ f.foldl (fun a kd => scInsert kd.1 kd.2 a) acc := by
  induction f with
  | nil => intro acc e he; simpa using he
  | cons kd f ih =>
      intro acc e he
      simp only [List.foldl_cons]
      exact ih _ _ (mem_scInsert_of_mem kd.1 kd.2 e acc he)

theorem scInner_pairwise (f : List (Nat × Nat)) :
    ∀ acc : List SlotEntry, (acc.map SlotEntry.key).Pairwise (· < ·) →
      ((f.foldl (fun a kd => scInsert kd.1 kd.2 a) acc).map SlotEntry.key).Pairwise
        (· < ·) := by
  induction f with
  | nil => intro acc h; simpa using h
  | cons kd f ih =>
      intro acc h
      simp only [List.foldl_cons]
      exact ih _ (pairwise_scInsert kd.1 kd.2 acc h)

theorem scInner_sound (factors : List (List (Nat × Nat))) (f : List (Nat × Nat))
    (hf : ∀ kd ∈ f, mentions factors kd.1 kd.2) :
    ∀ acc, (∀ e ∈ acc, mentions factors e.key e.dimension) →
      ∀ e ∈ f.foldl (fun a kd => scInsert kd.1 kd.2 a) acc,
        mentions factors e.key e.dimension := by
  induction f with
  | nil => intro acc hacc e he; exact hacc e (by simpa using he)
  | cons kd f ih =>
      intro acc hacc e he
      simp only [List.foldl_cons] at he
      refine ih (fun kd' hkd' => hf kd' (by simp [hkd'])) _ ?_ e he
      intro e' he'
      rcases mem_scInsert kd.1 kd.2 e' acc he' with h' | h'
      · exact hacc e' h'
      · subst h'
        exact hf kd (by simp)

theorem scInner_complete (f : List (Nat × Nat)) :
    ∀ kd ∈ f, ∀ acc : List SlotEntry,
      ∃ e ∈ f.foldl (fun a kd => scInsert kd.1 kd.2 a) acc, e.key = kd.1 := by
  induction f with
  | nil => intro kd h; simp at h
  | cons kd' f ih =>
      intro kd hkd acc
      rcases List.mem_cons.mp hkd with rfl | hkd'
      · simp only [List.foldl_cons]
        obtain ⟨e, he, hk⟩ := exists_key_scInsert kd.1 kd.2 acc
        exact ⟨e, scInner_mem_preserved f _ e he, hk⟩
      · simp only [List.foldl_cons]
        exact ih kd hkd' _

theorem scOuter_mem_preserved :
    ∀ (fs : List (List (Nat × Nat))) (acc : List SlotEntry) (e : SlotEntry), e ∈ acc →
      e ∈ fs.foldl (fun acc2 f => f.foldl (fun a kd => scInsert kd.1 kd.2 a) acc2) acc := by
  intro fs
  induction fs with
  | nil => intro acc e he; simpa using he
  | cons f fs ih =>
      intro acc e he
      simp only [List.foldl_cons]
      exact ih _ e (scInner_mem_preserved f acc e he)

theorem scOuter_pairwise :
    ∀ (fs : List (List (Nat × Nat))) (acc : List SlotEntry),
      (acc.map SlotEntry.key).Pairwise (· < ·) →
      ((fs.foldl (fun acc2 f => f.foldl (fun a kd => scInsert kd.1 kd.2 a) acc2)
        acc).map SlotEntry.key).Pairwise (· < ·) := by
  intro fs
  induction fs with
  | nil => intro acc h; simpa using h
  | cons f fs ih =>
      intro acc h
      simp only [List.foldl_cons]
      exact ih _ (scInner_pairwise f acc h)

theorem scOuter_sound (factors : List (List (Nat × Nat))) :
    ∀ fs : List (List (Nat × Nat)),
      (∀ f ∈ fs, ∀ kd ∈ f, mentions factors kd.1 kd.2) →
      ∀ acc, (∀ e ∈ acc, mentions factors e.key e.dimension) →
      ∀ e ∈ fs.foldl (fun acc2 f => f.foldl (fun a kd => scInsert kd.1 kd.2 a) acc2) acc,
        mentions factors e.key e.dimension := by
  intro fs
  induction fs with
  | nil => intro _ acc hacc e he; exact hacc e (by simpa using he)
  | cons f fs ih =>
      intro hfs acc hacc e he
      simp only [List.foldl_cons] at he
      refine ih (fun f' hf' => hfs f' (by simp [hf'])) _ ?_ e he
      exact scInner_sound factors f (hfs f (by simp)) acc hacc

theorem scOuter_complete :
    ∀ (fs : List (List (Nat × Nat))) (f : List (Nat × Nat)), f ∈ fs →
      ∀ kd ∈ f, ∀ acc : List SlotEntry,
      ∃ e ∈ fs.foldl (fun acc2 f => f.foldl (fun a kd => scInsert kd.1 kd.2 a) acc2) acc,
        e.key = kd.1 := by
  intro fs
  induction fs with
  | nil => intro f h; simp at h
  | cons f' fs ih =>
      intro f hf kd hkd acc
      rcases List.mem_cons.mp hf with rfl | hf'
      · simp only [List.foldl_cons]
        obtain ⟨e, he, hk⟩ := scInner_complete f kd hkd acc
        exact ⟨e, scOuter_mem_preserved fs _ e he, hk⟩
      · simp only [List.foldl_cons]
        exact ih f hf' kd hkd _

/-- C8: the Scatter built from a factor graph (without an explicit ordering)
is the sorted union of all variable keys mentioned by its factors, in strictly
ascending key order, each key paired with that variable's dimension (the
dimension the factors that mention it agree on). -/
theorem scatter_sorted_union (factors : List (List (Nat × Nat)))
    (hcons : ∀ k d d', mentions factors k d → mentions factors k d' → d = d') :
    ((scatterFromGraph factors).map SlotEntry.key).Pairwise (· < ·) ∧
    (∀ e ∈ scatterFromGraph factors, mentions factors e.key e.dimension) ∧
    (∀ k d, mentions factors k d → (⟨k, d⟩ : SlotEntry) ∈ scatterFromGraph factors) := by
  refine ⟨?_, ?_, ?_⟩
  · exact scOuter_pairwise factors [] (by simp)
  · exact scOuter_sound factors factors (fun f hf kd hkd => ⟨f, hf, hkd⟩) []
      (by simp)
  · intro k d hm
    obtain ⟨f, hf, hkd⟩ := hm
    obtain ⟨e, he, hk⟩ := scOuter_complete factors f hf (k, d) hkd []
    have hme : mentions factors e.key e.dimension :=
      scOuter_sound factors factors (fun f' hf' kd' hkd' => ⟨f', hf', hkd'⟩) []
        (by simp) e he
    have hd : e.dimension = d := by
      refine hcons k e.dimension d ?_ ⟨f, hf, hkd⟩
      have hk' : e.key = k := hk
      rw [← hk']
      exact hme
    have he' : e = ⟨k, d⟩ := by
      cases e
      simp only at hk hd
      simp [hk, hd]
    rw [← he']
    exact he

theorem scatter_sorted_union_witness :
    (⟨0, 1⟩ : SlotEntry) ∈ scatterFromGraph [[(2, 3), (0, 1)], [(5, 2)]] ∧
    scatterFromGraph [[(2, 3), (0, 1)], [(5, 2)]] = [⟨0, 1⟩, ⟨2, 3⟩, ⟨5, 2⟩] := by
  have hcons : ∀ k d d', mentions [[(2, 3), (0, 1)], [(5, 2)]] k d →
      mentions [[(2, 3), (0, 1)], [(5, 2)]] k d' → d = d' := by
    rintro k d d' ⟨f, hf, hkd⟩ ⟨g, hg, hkd'⟩
    simp only [List.mem_cons, List.not_mem_nil, or_false] at hf hg
    rcases hf with rfl | rfl <;> rcases hg with rfl | rfl <;>
      simp only [List.mem_cons, List.not_mem_nil, or_false, Prod.mk.injEq] at hkd hkd' <;>
      rcases hkd with ⟨rfl, rfl⟩ | ⟨rfl, rfl⟩ <;>
      rcases hkd' with ⟨h1, h2⟩ | ⟨h1, h2⟩ <;> omega
  refine ⟨?_, by decide⟩
  exact (scatter_sorted_union [[(2, 3), (0, 1)], [(5, 2)]] hcons).2.2 0 1
    ⟨[(2, 3), (0, 1)], by simp, by simp⟩
